import Mathlib

/-!
Shallow embedding of `src/openelm/map_elites.py` (classes `Map` and
`MAPElites`) and verification of the specification's claims about it.

Modelling conventions:
* Python/numpy floats are modelled by `FVal`: an exact rational together
  with the special values `nan`, `-inf`, `+inf`.  The comparison operators
  (`flt`, `fle`), `np.isinf`, `np.isfinite` and `np.isclose` follow IEEE-754
  semantics on these values (any comparison with `nan` is false; `np.isclose`
  uses `|a - b| <= atol + rtol * |b|` with `rtol = 1e-5`, is false when
  either argument is `nan`, and compares infinities by sign).
* A numpy array of shape `dims` (or `(history_length,) + dims`) is modelled
  as a function from the cell index type `ι` (and a history-slot number)
  to the payload; `Map` mirrors the Python `Map` class fields.
* Genome objects are an abstract type `G`.  The genome map's fill value
  `0.0` (a float placed in a dtype=object array) is modelled as `none` of
  `Option G`.
* The environment's nondeterministic calls (`random()`, `mutate(...)`,
  `np.random.choice`) are modelled by oracle functions indexed by a call
  counter, so the search loop is a deterministic executable function of
  the oracles.
-/

namespace OpenELM

/-- Model of a Python/numpy double: exact rational or a special value. -/
inductive FVal : Type where
  | nan : FVal
  | ninf : FVal
  | pinf : FVal
  | val : ℚ → FVal
deriving DecidableEq

namespace FVal

/-- `np.isinf`. -/
def isinf : FVal → Bool
  | ninf => true
  | pinf => true
  | nan => false
  | val _ => false

/-- `np.isfinite`. -/
def isfinite : FVal → Bool
  | val _ => true
  | nan => false
  | ninf => false
  | pinf => false

/-- IEEE-754 strict less-than (`a < b` on Python floats): every comparison
involving `nan` is false. -/
def flt : FVal → FVal → Bool
  | nan, _ => false
  | _, nan => false
  | ninf, ninf => false
  | ninf, pinf => true
  | ninf, val _ => true
  | pinf, _ => false
  | val _, pinf => true
  | val _, ninf => false
  | val a, val b => decide (a < b)

/-- IEEE-754 less-or-equal (`a <= b` on Python floats). -/
def fle : FVal → FVal → Bool
  | nan, _ => false
  | _, nan => false
  | ninf, _ => true
  | pinf, pinf => true
  | pinf, _ => false
  | val _, pinf => true
  | val _, ninf => false
  | val a, val b => decide (a ≤ b)

/-- `np.isclose a b` with `rtol = 1e-5` and absolute tolerance `atol`:
`|a - b| <= atol + rtol * |b|` on finite values, sign comparison on
infinities, false when `nan` is involved. -/
def isclose (a b : FVal) (atol : ℚ) : Bool :=
  match a, b with
  | val x, val y => decide (|x - y| ≤ atol + (1 / 100000) * |y|)
  | pinf, pinf => true
  | ninf, ninf => true
  | _, _ => false

/-- Rational content of a finite value (0 for special values). -/
def toRat : FVal → ℚ
  | val q => q
  | nan => 0
  | ninf => 0
  | pinf => 0

end FVal

/-- Model of the Python class `Map` (`map_elites.py`, lines 13-98): a
dimensioned array with an optional circular history buffer per cell.

* `history_length` mirrors `self.history_length` (a Python int; the
  negative-int construction case is handled by `Map.make` below).
* `top` mirrors `self.top` (per-cell index of the most recently written
  history slot).  The source only creates `self.top` when
  `history_length != 1`; here it is always present but is never consulted
  by `get`/`set` when `history_length = 1`.
* `array` mirrors `self.array`; for `history_length == 1` the backing
  numpy array has no history axis, which is modelled by using only slot 0.
* `empty` mirrors `self.empty`. -/
structure Map (ι : Type) (α : Type) where
  history_length : ℕ
  top : ι → ℕ
  array : ℕ → ι → α
  empty : Bool

namespace Map

variable {ι : Type} {α : Type} [DecidableEq ι]

/-- `Map.__init__` for a nonnegative `history_length` (lines 44-53).
`top` is initialised to `history_length - 1` ("starting top of buffer is 0
after the first `% history_length` advance"); the source stores `-1` when
`history_length = 0`, a case no operational claim touches (truncated
subtraction gives `0` here). -/
def init (h : ℕ) (fill : α) : Map ι α :=
  { history_length := h
    top := fun _ => h - 1
    array := fun _ _ => fill
    empty := true }

/-- `Map.__init__` over a Python int `history_length`.  The source performs
no validation; the only way construction can fail is `np.full` rejecting a
negative first dimension (`(history_length,) + dims`) in the
`history_length != 1` branch. -/
def make (h : ℤ) (fill : α) : Except String (Map ι α) :=
  if h = 1 then Except.ok (init 1 fill)
  else if h < 0 then Except.error "ValueError: negative dimensions are not allowed"
  else Except.ok (init h.toNat fill)

/-- `Map.__getitem__` (lines 55-60). -/
def get (m : Map ι α) (ix : ι) : α :=
  if m.history_length = 1 then m.array 0 ix
  else m.array (m.top ix) ix

/-- `Map.__setitem__` (lines 62-70). -/
def set (m : Map ι α) (ix : ι) (v : α) : Map ι α :=
  if m.history_length = 1 then
    { m with
      empty := false
      array := fun s j => if s = 0 ∧ j = ix then v else m.array s j }
  else
    let t := (m.top ix + 1) % m.history_length
    { m with
      empty := false
      top := fun j => if j = ix then t else m.top j
      array := fun s j => if s = t ∧ j = ix then v else m.array s j }

/-- Number of history slots actually present in the backing array:
`self.array.shape[0]` when a history axis exists, 1 otherwise. -/
def histSlots (m : Map ι α) : ℕ :=
  if m.history_length = 1 then 1 else m.history_length

/-- `Map.qd_score` (lines 85-88): sum of all finite entries of the whole
backing array, history slots included. -/
def qd_score [Fintype ι] (m : Map ι FVal) : ℚ :=
  ∑ s ∈ Finset.range m.histSlots, ∑ ix : ι,
    if (m.array s ix).isfinite = true then (m.array s ix).toRat else 0

/-- `Map.niches_filled` (lines 95-98): count of finite entries of the whole
backing array, history slots included. -/
def niches_filled [Fintype ι] (m : Map ι FVal) : ℕ :=
  ∑ s ∈ Finset.range m.histSlots,
    (Finset.univ.filter fun ix : ι => (m.array s ix).isfinite = true).card

end Map

/-- Value at index `i` of `np.linspace lo hi n` (exact arithmetic). -/
def linspace (lo hi : ℚ) (n : ℕ) (i : ℕ) : ℚ :=
  lo + i * (hi - lo) / ((n : ℚ) - 1)

/-- One dimension of `MAPElites.__init__` line 147:
`np.linspace(lo, hi, g + 1)[1:-1]`, the `g - 1` interior cut points. -/
def binsFor (lo hi : ℚ) (g : ℕ) : List ℚ :=
  (((List.range (g + 1)).map (linspace lo hi (g + 1))).drop 1).dropLast

/-- `self.bins` (line 147): interior cut points for every behaviour
dimension, all dimensions sharing the grid resolution `map_grid_size[0]`. -/
def mkBins (space : List (ℚ × ℚ)) (g : ℕ) : List (List ℚ) :=
  space.map fun p => binsFor p.1 p.2 g

/-- `np.digitize x bins` for increasing `bins` (default `right=False`):
the number of cut points `≤ x`; `nan` and `+inf` sort past the end,
`-inf` before the beginning. -/
def digitize (x : FVal) (bins : List ℚ) : ℕ :=
  match x with
  | FVal.val q => (bins.filter fun e => decide (e ≤ q)).length
  | FVal.nan => bins.length
  | FVal.pinf => bins.length
  | FVal.ninf => 0

/-- `MAPElites.to_mapindex` (lines 174-180). -/
def to_mapindex (bins : List (List ℚ)) : Option (List FVal) → Option (List ℕ)
  | none => none
  | some b => some ((b.zip bins).map fun p => digitize p.1 p.2)

/-- The environment collaborator, as consumed by the search loop.  The
externally nondeterministic calls are indexed by call counters. -/
structure EnvM (ι : Type) (G : Type) where
  batch_size : ℕ
  max_fitness : FVal
  fitness : G → FVal
  mapix : G → Option ι
  randomO : ℕ → List G
  mutateO : ℕ → List (Option G) → List G

/-- The mutable state of `MAPElites.search`: the three cell stores, the
recycle buffer, the optional history record, the local best trackers, and
call counters for the oracle-indexed external calls. -/
structure LoopState (ι : Type) (G : Type) where
  fitnesses : Map ι FVal
  genomes : Map ι (Option G)
  nonzero : Map ι Bool
  recycled : List (Option G)
  recycled_count : ℕ
  history : ι → List G
  max_fitness : FVal
  max_genome : Option G
  rand_calls : ℕ
  mutate_calls : ℕ
  select_calls : ℕ

variable {ι : Type} {G : Type} [DecidableEq ι]

/-- The archive as built by `MAPElites.__init__` (lines 150-170) followed by
the local initialisation at the top of `search` (lines 204-208):
`fitnesses` filled with `-inf` (or a resumed `init_map`), `genomes` filled
with the placeholder, `nonzero` filled with `False` and no history axis,
`recycled = [None] * 1000`, `recycled_count = 0`, empty history,
`max_fitness = -inf`, `max_genome = None`. -/
def freshLoop (hl : ℕ) (initFit : Option (Map ι FVal)) : LoopState ι G :=
  { fitnesses := initFit.getD (Map.init hl FVal.ninf)
    genomes := Map.init hl none
    nonzero := Map.init 1 false
    recycled := List.replicate 1000 none
    recycled_count := 0
    history := fun _ => []
    max_fitness := FVal.ninf
    max_genome := none
    rand_calls := 0
    mutate_calls := 0
    select_calls := 0 }

/-- The body of the per-candidate loop of `MAPElites.search`
(lines 229-259).  Returns the updated state and whether the final
`np.isclose` check fired (the `break`). -/
def candidateStep (env : EnvM ι G) (save_history : Bool) (atol : ℚ)
    (st : LoopState ι G) (ind : G) : LoopState ι G × Bool :=
  let fitness := env.fitness ind
  if fitness.isinf = true then (st, false)
  else
    match env.mapix ind with
    | none =>
        ({ st with
            recycled := st.recycled.set (st.recycled_count % st.recycled.length) (some ind)
            recycled_count := st.recycled_count + 1 }, false)
    | some map_ix =>
        let st1 :=
          if save_history then
            { st with history := fun j => if j = map_ix then st.history j ++ [ind] else st.history j }
          else st
        let st2 := { st1 with nonzero := st1.nonzero.set map_ix true }
        let st3 :=
          if FVal.flt (st2.fitnesses.get map_ix) fitness = true then
            { st2 with
                fitnesses := st2.fitnesses.set map_ix fitness
                genomes := st2.genomes.set map_ix (some ind) }
          else st2
        let st4 :=
          if FVal.flt st3.max_fitness fitness = true then
            { st3 with max_fitness := fitness, max_genome := some ind }
          else st3
        (st4, FVal.isclose st4.max_fitness env.max_fitness atol)

/-- The per-candidate loop over one batch: processing stops after the
candidate on which the tolerance check fires (`break`), leaving the rest of
the batch unprocessed.  The `break` does not propagate further. -/
def processBatch (env : EnvM ι G) (save_history : Bool) (atol : ℚ) :
    LoopState ι G → List G → LoopState ι G
  | st, [] => st
  | st, ind :: rest =>
      let r := candidateStep env save_history atol st ind
      if r.2 then r.1 else processBatch env save_history atol r.1 rest

/-- Processing a list of candidates with no early exit: used to describe
archive states reachable over a run (every `processBatch` state is the
`processList` state of a prefix of the batch). -/
def processList (env : EnvM ι G) (save_history : Bool) (atol : ℚ)
    (st : LoopState ι G) (cs : List G) : LoopState ι G :=
  cs.foldl (fun s ind => (candidateStep env save_history atol s ind).1) st

/-- `np.flatnonzero(self.nonzero.array)` as the sublist of the (C-order)
index enumeration `allIxs` whose cells are marked filled. -/
def selectionList (allIxs : List ι) (nz : Map ι Bool) : List ι :=
  allIxs.filter fun ix => nz.get ix

/-- `MAPElites.random_selection` (lines 182-185).  `np.random.choice`
raises `ValueError: a must be non-empty` on an empty candidate set; the
uniform draw is modelled by the oracle `selectO` consulted at the current
selection-call counter. -/
def random_selection (allIxs : List ι) (selectO : ℕ → ℕ) (st : LoopState ι G) :
    Except String (ι × LoopState ι G) :=
  let fl := selectionList allIxs st.nonzero
  if h : fl.length = 0 then Except.error "ValueError: a must be non-empty"
  else
    Except.ok
      (fl.get ⟨selectO st.select_calls % fl.length, Nat.mod_lt _ (Nat.pos_of_ne_zero h)⟩,
        { st with select_calls := st.select_calls + 1 })

/-- The batch-assembly loop of the mutation branch (lines 218-221):
`batch_size` selection calls, each appending the genome stored at the
selected niche. -/
def selectBatch (allIxs : List ι) (selectO : ℕ → ℕ) :
    ℕ → LoopState ι G → List (Option G) → Except String (List (Option G) × LoopState ι G)
  | 0, st, acc => Except.ok (acc, st)
  | k + 1, st, acc =>
      match random_selection allIxs selectO st with
      | Except.error e => Except.error e
      | Except.ok (ix, st1) => selectBatch allIxs selectO k st1 (acc ++ [st1.genomes.get ix])

/-- The outer iteration loop of `MAPElites.search` (lines 210-259), with
`rem` remaining iterations and `n` the current 0-indexed step.  Note that
the early-stop `break` of the per-candidate loop does not leave this loop:
every iteration up to `total_steps` executes. -/
def searchSteps (env : EnvM ι G) (allIxs : List ι) (selectO : ℕ → ℕ)
    (save_history : Bool) (atol : ℚ) (init_steps : ℕ) :
    ℕ → ℕ → LoopState ι G → Except String (LoopState ι G)
  | 0, _, st => Except.ok st
  | rem + 1, n, st =>
      if n < init_steps ∨ st.genomes.empty = true then
        let inds := env.randomO st.rand_calls
        let st1 := { st with rand_calls := st.rand_calls + 1 }
        searchSteps env allIxs selectO save_history atol init_steps rem (n + 1)
          (processBatch env save_history atol st1 inds)
      else
        match selectBatch allIxs selectO env.batch_size st [] with
        | Except.error e => Except.error e
        | Except.ok (batch, st1) =>
            let inds := env.mutateO st1.mutate_calls batch
            let st2 := { st1 with mutate_calls := st1.mutate_calls + 1 }
            searchSteps env allIxs selectO save_history atol init_steps rem (n + 1)
              (processBatch env save_history atol st2 inds)

/-- `MAPElites.search` (lines 187-262): run `total_steps` outer iterations
from a freshly initialised archive, with `hl` the configured
`history_length` and `initFit` an optional resumed fitness map. -/
def search (env : EnvM ι G) (allIxs : List ι) (selectO : ℕ → ℕ)
    (save_history : Bool) (hl : ℕ) (initFit : Option (Map ι FVal))
    (init_steps total_steps : ℕ) (atol : ℚ) : Except String (LoopState ι G) :=
  searchSteps env allIxs selectO save_history atol init_steps total_steps 0
    (freshLoop hl initFit)

/-- Writing a list of values to one cell in sequence. -/
def writeSeq (m : Map ι α) (ix : ι) : List α → Map ι α
  | [] => m
  | v :: vs => writeSeq (m.set ix v) ix vs

/-! ### Concrete scenario environments -/

/-- Phenotypes for the early-stop scenario: genome 0 lands in bin 0,
every other genome in bin 1 of a 1-dimensional grid over `(0, 1)` with
resolution 2. -/
def phenoC1 : ℕ → Option (List FVal) :=
  fun g => if g = 0 then some [FVal.val (1 / 4)] else some [FVal.val (3 / 4)]

/-- Early-stop scenario environment: `max_fitness = 2.0`; the random batch
is a single genome of fitness exactly 2.0, mutation always yields a genome
of fitness 1.0 in the other bin. -/
def envC1 : EnvM (List ℕ) ℕ :=
  { batch_size := 1
    max_fitness := FVal.val 2
    fitness := fun g => if g = 0 then FVal.val 2 else FVal.val 1
    mapix := fun g => to_mapindex (mkBins [(0, 1)] 2) (phenoC1 g)
    randomO := fun _ => [0]
    mutateO := fun _ _ => [1] }

/-- One-cell environment used to exercise the archive directly: genome 0
has fitness 1.0, every other genome fitness 2.0, all mapped to the single
cell. -/
def envCE : EnvM Unit ℕ :=
  { batch_size := 1
    max_fitness := FVal.val 100
    fitness := fun g => if g = 0 then FVal.val 1 else FVal.val 2
    mapix := fun _ => some ()
    randomO := fun _ => []
    mutateO := fun _ _ => [] }

/-- Archive state after routing fitness 1.0 then fitness 2.0 into the same
cell of a store with `history_length = 2`. -/
def stCE : LoopState Unit ℕ :=
  processList envCE false 0 (freshLoop 2 none) [0, 1]

/-- One-cell environment whose every genome evaluates to `nan` fitness. -/
def envNaN : EnvM Unit ℕ :=
  { batch_size := 1
    max_fitness := FVal.val 100
    fitness := fun _ => FVal.nan
    mapix := fun _ => some ()
    randomO := fun _ => []
    mutateO := fun _ _ => [] }

/-- Archive state after processing a single `nan`-fitness candidate. -/
def stNaN : LoopState Unit ℕ :=
  processList envNaN false 0 (freshLoop 1 none) [0]

/-- Trivial one-cell environment where every candidate is mappable. -/
def envW10 : EnvM Unit Unit :=
  { batch_size := 1
    max_fitness := FVal.val 0
    fitness := fun _ => FVal.val 1
    mapix := fun _ => some ()
    randomO := fun _ => [()]
    mutateO := fun _ _ => [()] }

/-- Environment all of whose candidates are unmappable (recycled). -/
def envRec : EnvM Unit Unit :=
  { batch_size := 0
    max_fitness := FVal.val 0
    fitness := fun _ => FVal.val 0
    mapix := fun _ => none
    randomO := fun _ => []
    mutateO := fun _ _ => [] }

/-! ### Basic lemmas about `FVal` -/

namespace FVal

theorem flt_self (a : FVal) : flt a a = false := by
  cases a <;> simp [flt]

theorem fle_of_flt {a b : FVal} (h : flt a b = true) : fle a b = true := by
  cases a <;> cases b <;> simp_all [flt, fle] <;> linarith

theorem fle_self {a : FVal} (h : a ≠ nan) : fle a a = true := by
  cases a <;> simp_all [fle]

theorem flt_nan_right (a : FVal) : flt a nan = false := by
  cases a <;> simp [flt]

theorem ne_nan_of_flt {a b : FVal} (h : flt a b = true) : b ≠ nan := by
  intro hb; rw [hb, flt_nan_right] at h; exact Bool.false_ne_true h

theorem fle_trans_of_flt {a b c : FVal} (hab : fle a b = true) (hbc : flt b c = true) :
    fle a c = true := by
  cases a <;> cases b <;> cases c <;> simp_all [flt, fle] <;> linarith

theorem fle_of_not_flt {a b : FVal} (ha : a ≠ nan) (hb : b ≠ nan)
    (h : flt a b = false) : fle b a = true := by
  cases a <;> cases b <;> simp_all [flt, fle] <;> linarith

theorem exists_val {a : FVal} (h1 : a ≠ nan) (h2 : isinf a = false) : ∃ q, a = val q := by
  cases a with
  | nan => exact absurd rfl h1
  | ninf => simp [isinf] at h2
  | pinf => simp [isinf] at h2
  | val q => exact ⟨q, rfl⟩

theorem exists_val_of_isfinite {a : FVal} (h : isfinite a = true) : ∃ q, a = val q := by
  cases a with
  | nan => simp [isfinite] at h
  | ninf => simp [isfinite] at h
  | pinf => simp [isfinite] at h
  | val q => exact ⟨q, rfl⟩

end FVal

/-! ### Basic lemmas about `Map` -/

namespace Map

variable {ι : Type} {α : Type} [DecidableEq ι]

@[simp]
theorem get_set_self (m : Map ι α) (ix : ι) (v : α) : (m.set ix v).get ix = v := by
  by_cases h : m.history_length = 1 <;> simp [get, set, h]

theorem get_set_other (m : Map ι α) {ix j : ι} (v : α) (hne : j ≠ ix) :
    (m.set ix v).get j = m.get j := by
  by_cases h : m.history_length = 1 <;> simp [get, set, h, hne]

@[simp]
theorem history_length_set (m : Map ι α) (ix : ι) (v : α) :
    (m.set ix v).history_length = m.history_length := by
  by_cases h : m.history_length = 1 <;> simp [set, h]

@[simp]
theorem empty_set (m : Map ι α) (ix : ι) (v : α) : (m.set ix v).empty = false := by
  by_cases h : m.history_length = 1 <;> simp [set, h]

theorem top_set (m : Map ι α) (ix : ι) (v : α) (j : ι) :
    (m.set ix v).top j =
      if m.history_length = 1 then m.top j
      else if j = ix then (m.top ix + 1) % m.history_length else m.top j := by
  by_cases h : m.history_length = 1 <;> simp [set, h]

theorem array_set (m : Map ι α) (ix : ι) (v : α) (s : ℕ) (j : ι) :
    (m.set ix v).array s j =
      if m.history_length = 1 then (if s = 0 ∧ j = ix then v else m.array s j)
      else if s = (m.top ix + 1) % m.history_length ∧ j = ix then v else m.array s j := by
  by_cases h : m.history_length = 1 <;> simp [set, h]

theorem top_set_lt (m : Map ι α) (ix : ι) (v : α) (hh : 1 ≤ m.history_length)
    (j : ι) (hj : m.top j < m.history_length) :
    (m.set ix v).top j < (m.set ix v).history_length := by
  rw [history_length_set, top_set]
  by_cases h : m.history_length = 1
  · simpa [h] using hj
  · by_cases hji : j = ix
    · simp only [h, if_neg, hji, if_pos rfl, if_false]
      exact Nat.mod_lt _ (by omega)
    · simpa [h, hji] using hj

end Map

/-! ### Lemmas about `writeSeq` -/

variable {ι : Type} {G : Type} {α : Type} [DecidableEq ι]

theorem writeSeq_append (m : Map ι α) (ix : ι) (l : List α) (v : α) :
    writeSeq m ix (l ++ [v]) = (writeSeq m ix l).set ix v := by
  induction l generalizing m with
  | nil => rfl
  | cons w l ih => simpa [writeSeq] using ih (m.set ix w)

theorem history_length_writeSeq (m : Map ι α) (ix : ι) (l : List α) :
    (writeSeq m ix l).history_length = m.history_length := by
  induction l generalizing m with
  | nil => rfl
  | cons w l ih => simpa [writeSeq] using ih (m.set ix w)

theorem top_writeSeq_lt (m : Map ι α) (ix : ι) (l : List α)
    (hh : 1 ≤ m.history_length) (htop : ∀ j, m.top j < m.history_length) :
    ∀ j, (writeSeq m ix l).top j < (writeSeq m ix l).history_length := by
  induction l generalizing m with
  | nil => exact htop
  | cons w l ih =>
      intro j
      refine ih (m.set ix w) ?_ ?_ j
      · simpa using hh
      · intro j2
        exact Map.top_set_lt m ix w hh j2 (htop j2)

theorem writeSeq_get_last (h : ℕ) (fill : α) (ix : ι) (vs : List α)
    (k : ℕ) (hk : k < vs.length) :
    (writeSeq (Map.init h fill) ix (vs.take (k + 1))).get ix = vs.get ⟨k, hk⟩ := by
  have htake : vs.take (k + 1) = vs.take k ++ [vs.get ⟨k, hk⟩] := by
    rw [List.take_succ]
    simp [List.getElem?_eq_getElem hk, List.get_eq_getElem]
  rw [htake, writeSeq_append, Map.get_set_self]

theorem writeSeq_top_array (h : ℕ) (hh : 2 ≤ h) (fill : α) (ix : ι)
    (l : List α) (hl : l.length ≤ h) :
    (writeSeq (Map.init h fill) ix l).top ix = (h - 1 + l.length) % h
    ∧ ∀ s : ℕ, (hs : s < l.length) →
        (writeSeq (Map.init h fill) ix l).array s ix = l.get ⟨s, hs⟩ := by
  induction l using List.reverseRecOn with
  | nil =>
      constructor
      · simp [writeSeq, Map.init, Nat.mod_eq_of_lt (by omega : h - 1 < h)]
      · intro s hs; simp at hs
  | append_singleton l v ih =>
      have hl2 : l.length ≤ h := by simp at hl; omega
      obtain ⟨ihtop, iharr⟩ := ih hl2
      have hlen : (l ++ [v]).length = l.length + 1 := by simp
      have hne1 : (writeSeq (Map.init h fill) ix l).history_length ≠ 1 := by
        rw [history_length_writeSeq]; simp [Map.init]; omega
      have hhl : (writeSeq (Map.init h fill) ix l).history_length = h := by
        rw [history_length_writeSeq]; rfl
      have hlh : l.length < h := by simp at hl; omega
      have htopval : ((writeSeq (Map.init h fill) ix l).top ix + 1) %
          (writeSeq (Map.init h fill) ix l).history_length = l.length := by
        rw [hhl, ihtop]
        have e1 : ((h - 1 + l.length) % h + 1) % h = (h - 1 + l.length + 1) % h := by
          conv_rhs => rw [Nat.add_mod]
          rw [Nat.mod_eq_of_lt (show 1 < h by omega)]
        rw [e1]
        have e2 : h - 1 + l.length + 1 = h + l.length := by omega
        rw [e2, Nat.add_mod_left, Nat.mod_eq_of_lt hlh]
      constructor
      · rw [writeSeq_append, Map.top_set, if_neg hne1, if_pos rfl, htopval, hlen]
        have : h - 1 + (l.length + 1) = h + l.length := by omega
        rw [this, Nat.add_mod_left, Nat.mod_eq_of_lt hlh]
      · intro s hs
        rw [writeSeq_append, Map.array_set, if_neg hne1, htopval]
        rw [hlen] at hs
        by_cases hsl : s = l.length
        · subst hsl
          simp [List.get_eq_getElem]
        · have hslt : s < l.length := by omega
          rw [if_neg (by simp [hsl])]
          rw [iharr s hslt]
          simp [List.get_eq_getElem, List.getElem_append_left hslt]

/-- Claim C3: for every cell store with `historyLength = h ≥ 1` and cell
`ix`, writing `h + 1` values in sequence and reading after each write
yields the most recently written value; after the `(h+1)`-th write the
first value's slot has been overwritten (the first value is no longer
current), and no write or read leaves the top pointer out of range (the
index-error branch of the backing array is never hit). -/
theorem C3_circular_buffer (h : ℕ) (hh : 1 ≤ h) (fill : α) (ix : ι)
    (vs : List α) (hlen : vs.length = h + 1) :
    (∀ k : ℕ, (hk : k < vs.length) →
      (writeSeq (Map.init h fill) ix (vs.take (k + 1))).get ix = vs.get ⟨k, by omega⟩)
    ∧ (writeSeq (Map.init h fill) ix vs).get ix = vs.get ⟨h, by omega⟩
    ∧ (writeSeq (Map.init h fill) ix (vs.take 1)).array 0 ix = vs.get ⟨0, by omega⟩
    ∧ (writeSeq (Map.init h fill) ix vs).array 0 ix = vs.get ⟨h, by omega⟩
    ∧ (vs.get ⟨0, by omega⟩ ≠ vs.get ⟨h, by omega⟩ →
        (writeSeq (Map.init h fill) ix vs).get ix ≠ vs.get ⟨0, by omega⟩)
    ∧ (∀ l : List α, ∀ j : ι,
        (writeSeq (Map.init h fill) ix l).top j
          < (writeSeq (Map.init h fill) ix l).history_length) := by
  have hhlt : h < vs.length := by omega
  have htake_all : vs.take (h + 1) = vs := by
    rw [← hlen]; exact List.take_length vs
  have hget_all : (writeSeq (Map.init h fill) ix vs).get ix = vs.get ⟨h, hhlt⟩ := by
    have := writeSeq_get_last h fill ix vs h hhlt
    rwa [htake_all] at this
  have hfirst : (writeSeq (Map.init h fill) ix (vs.take 1)).array 0 ix
      = vs.get ⟨0, by omega⟩ := by
    have h1 : vs.take 1 = [vs.get ⟨0, by omega⟩] := by
      cases vs with
      | nil => simp at hlen
      | cons a l => simp [List.take, List.get]
    rw [h1]
    show ((Map.init h fill).set ix _).array 0 ix = _
    rw [Map.array_set]
    by_cases hone : h = 1
    · simp [Map.init, hone]
    · have hinit : (Map.init (ι := ι) h fill).history_length = h := rfl
      rw [hinit, if_neg hone]
      have htop : ((Map.init (ι := ι) h fill).top ix + 1) % h = 0 := by
        show (h - 1 + 1) % h = 0
        have e : h - 1 + 1 = h := by omega
        rw [e, Nat.mod_self]
      rw [htop]
      simp
  have hslot0 : (writeSeq (Map.init h fill) ix vs).array 0 ix = vs.get ⟨h, hhlt⟩ := by
    by_cases hone : h = 1
    · subst hone
      have hl1 : (writeSeq (Map.init 1 fill) ix vs).history_length = 1 := by
        rw [history_length_writeSeq]; rfl
      have e : (writeSeq (Map.init 1 fill) ix vs).get ix
          = (writeSeq (Map.init 1 fill) ix vs).array 0 ix := by
        rw [Map.get, if_pos hl1]
      rw [← e, hget_all]
    · have hh2 : 2 ≤ h := by omega
      have hsplit : vs = vs.take h ++ [vs.get ⟨h, hhlt⟩] := by
        conv_lhs => rw [← htake_all]
        rw [List.take_succ]
        congr 1
        simp [List.getElem?_eq_getElem hhlt, List.get_eq_getElem]
      have hw : writeSeq (Map.init h fill) ix vs
          = (writeSeq (Map.init h fill) ix (vs.take h)).set ix (vs.get ⟨h, hhlt⟩) := by
        conv_lhs => rw [hsplit]
        rw [writeSeq_append]
      obtain ⟨ihtop, _⟩ := writeSeq_top_array h hh2 fill ix (vs.take h)
        (by rw [List.length_take]; omega)
      have hlt : (vs.take h).length = h := by rw [List.length_take]; omega
      rw [hw, Map.array_set]
      have hne1 : (writeSeq (Map.init h fill) ix (vs.take h)).history_length ≠ 1 := by
        rw [history_length_writeSeq]; show h ≠ 1; omega
      rw [if_neg hne1]
      have htopv : ((writeSeq (Map.init h fill) ix (vs.take h)).top ix + 1) %
          (writeSeq (Map.init h fill) ix (vs.take h)).history_length = 0 := by
        rw [history_length_writeSeq]
        show _ % h = 0
        rw [ihtop, hlt]
        have e1 : (h - 1 + h) % h = h - 1 := by
          have e : h - 1 + h = (h - 1) + 1 * h := by omega
          rw [e, Nat.add_mul_mod_self_right, Nat.mod_eq_of_lt (by omega)]
        rw [e1]
        have e : h - 1 + 1 = h := by omega
        rw [e, Nat.mod_self]
      rw [htopv]
      simp
  refine ⟨fun k hk => writeSeq_get_last h fill ix vs k hk, hget_all, hfirst, hslot0, ?_, ?_⟩
  · intro hne hcontra
    rw [hget_all] at hcontra
    exact hne hcontra.symm
  · intro l j
    refine top_writeSeq_lt (Map.init h fill) ix l ?_ ?_ j
    · exact hh
    · intro j2; show h - 1 < h; omega

/-- Witness for C3 at `h = 2`, writing `[10, 20, 30]` to the single cell
of a `Unit`-indexed store. -/
theorem C3_circular_buffer_witness :
    (writeSeq (Map.init (ι := Unit) 2 (0 : ℕ)) () [10, 20, 30]).get () = 30
    ∧ (writeSeq (Map.init (ι := Unit) 2 (0 : ℕ)) () [10, 20, 30]).array 0 () = 30 := by
  have h := C3_circular_buffer (ι := Unit) (α := ℕ) 2 (by decide) 0 () [10, 20, 30]
    (by decide)
  refine ⟨?_, ?_⟩
  · have hg := h.2.1
    simpa using hg
  · have ha := h.2.2.2.1
    simpa using ha

/-- Claim C8 counterexample: constructing a cell store with
`historyLength = 0` (a non-positive value) does not fail: `Map.__init__`
performs no validation and `np.full((0,) + dims, ...)` accepts a zero
first dimension, so a store is produced. -/
theorem C8_counterexample :
    Map.make (ι := Unit) (α := ℚ) 0 0 = Except.ok (Map.init 0 0) := rfl

/-- Claim C8 (amended): construction fails only for a negative
`historyLength` (via the array library's negative-dimension error); every
nonnegative `historyLength`, including 0, constructs without error — there
is no configuration check. -/
theorem C8_make_amended {ι α : Type} (fill : α) (z : ℤ) :
    (z < 0 → (Map.make (ι := ι) z fill).isOk = false)
    ∧ (0 ≤ z → (Map.make (ι := ι) z fill).isOk = true) := by
  constructor
  · intro hz
    have h1 : ¬(z = 1) := by omega
    simp only [Map.make, if_neg h1, if_pos hz]
    rfl
  · intro hz
    by_cases h1 : z = 1
    · simp only [Map.make, if_pos h1]
      rfl
    · have h2 : ¬(z < 0) := by omega
      simp only [Map.make, if_neg h1, if_neg h2]
      rfl

/-- Witness for the amended C8 at `z = -1` and `z = 0`. -/
theorem C8_make_amended_witness :
    (Map.make (ι := Unit) (α := ℚ) (-1) 0).isOk = false
    ∧ (Map.make (ι := Unit) (α := ℚ) 0 0).isOk = true :=
  ⟨(C8_make_amended 0 (-1)).1 (by decide), (C8_make_amended 0 0).2 (by decide)⟩

/-! ### Case analysis of the per-candidate step -/

theorem candidateStep_inf (env : EnvM ι G) (sh : Bool) (atol : ℚ)
    (st : LoopState ι G) (ind : G) (h : (env.fitness ind).isinf = true) :
    candidateStep env sh atol st ind = (st, false) := by
  simp [candidateStep, h]

theorem candidateStep_recycle (env : EnvM ι G) (sh : Bool) (atol : ℚ)
    (st : LoopState ι G) (ind : G) (hinf : (env.fitness ind).isinf = false)
    (hm : env.mapix ind = none) :
    candidateStep env sh atol st ind =
      ({ st with
          recycled := st.recycled.set (st.recycled_count % st.recycled.length) (some ind)
          recycled_count := st.recycled_count + 1 }, false) := by
  simp [candidateStep, hinf, hm]

theorem candidateStep_mapped (env : EnvM ι G) (sh : Bool) (atol : ℚ)
    (st : LoopState ι G) (ind : G) (ix : ι)
    (hinf : (env.fitness ind).isinf = false) (hm : env.mapix ind = some ix) :
    ((candidateStep env sh atol st ind).1.nonzero = st.nonzero.set ix true
    ∧ (candidateStep env sh atol st ind).1.recycled = st.recycled
    ∧ (candidateStep env sh atol st ind).1.recycled_count = st.recycled_count)
    ∧ (if FVal.flt (st.fitnesses.get ix) (env.fitness ind) = true then
        (candidateStep env sh atol st ind).1.fitnesses = st.fitnesses.set ix (env.fitness ind)
        ∧ (candidateStep env sh atol st ind).1.genomes = st.genomes.set ix (some ind)
      else
        (candidateStep env sh atol st ind).1.fitnesses = st.fitnesses
        ∧ (candidateStep env sh atol st ind).1.genomes = st.genomes) := by
  cases sh <;>
    by_cases hf : FVal.flt (st.fitnesses.get ix) (env.fitness ind) = true <;>
      by_cases hmx : FVal.flt
          ((if FVal.flt (st.fitnesses.get ix) (env.fitness ind) = true then
              env.fitness ind else st.max_fitness)) (env.fitness ind) = true <;>
        simp [candidateStep, hinf, hm, hf] <;> split <;> simp_all

/-- Claim C4: a candidate with non-infinite fitness `f` routed to niche
`ix` holding fitness `f0` overwrites both the fitness store and the genome
store at `ix` iff `f > f0` in the float order (strictly); otherwise (in
particular on ties) both stores are left completely unchanged. -/
theorem C4_replacement (env : EnvM ι G) (sh : Bool) (atol : ℚ)
    (st : LoopState ι G) (ind : G) (ix : ι)
    (hinf : (env.fitness ind).isinf = false) (hm : env.mapix ind = some ix) :
    (FVal.flt (st.fitnesses.get ix) (env.fitness ind) = true →
      (candidateStep env sh atol st ind).1.fitnesses.get ix = env.fitness ind
      ∧ (candidateStep env sh atol st ind).1.genomes.get ix = some ind)
    ∧ (FVal.flt (st.fitnesses.get ix) (env.fitness ind) = false →
      (candidateStep env sh atol st ind).1.fitnesses = st.fitnesses
      ∧ (candidateStep env sh atol st ind).1.genomes = st.genomes)
    ∧ (env.fitness ind = st.fitnesses.get ix →
      (candidateStep env sh atol st ind).1.fitnesses = st.fitnesses
      ∧ (candidateStep env sh atol st ind).1.genomes = st.genomes) := by
  obtain ⟨_, hcond⟩ := candidateStep_mapped env sh atol st ind ix hinf hm
  refine ⟨?_, ?_, ?_⟩
  · intro hf
    rw [if_pos hf] at hcond
    rw [hcond.1, hcond.2, Map.get_set_self, Map.get_set_self]
    exact ⟨rfl, rfl⟩
  · intro hf
    rw [if_neg (by simp [hf])] at hcond
    exact hcond
  · intro heq
    have hf : FVal.flt (st.fitnesses.get ix) (env.fitness ind) = false := by
      rw [heq, FVal.flt_self]
    rw [if_neg (by simp [hf])] at hcond
    exact hcond

/-- Witness for C4: inserting fitness 1.0 into the empty cell of `envCE`
overwrites fitness and genome there. -/
theorem C4_replacement_witness :
    (candidateStep envCE false 0 (freshLoop 1 none) 0).1.fitnesses.get () = FVal.val 1
    ∧ (candidateStep envCE false 0 (freshLoop 1 none) 0).1.genomes.get () = some 0 := by
  refine (C4_replacement envCE false 0 (freshLoop 1 none) 0 () ?_ ?_).1 ?_
  · decide
  · rfl
  · decide

/-! ### Per-niche monotonicity -/

theorem Map.get_init (h : ℕ) (fill : α) (i : ι) : (Map.init h fill).get i = fill := by
  by_cases h1 : h = 1 <;> simp [Map.get, Map.init, h1]

theorem candidateStep_fit_mono (env : EnvM ι G) (sh : Bool) (atol : ℚ)
    (st : LoopState ι G) (ind : G)
    (hinv : ∀ i, st.fitnesses.get i ≠ FVal.nan ∧ st.fitnesses.get i ≠ FVal.pinf) :
    (∀ i, FVal.fle (st.fitnesses.get i)
      ((candidateStep env sh atol st ind).1.fitnesses.get i) = true)
    ∧ (∀ i, (candidateStep env sh atol st ind).1.fitnesses.get i ≠ FVal.nan
        ∧ (candidateStep env sh atol st ind).1.fitnesses.get i ≠ FVal.pinf) := by
  by_cases hinf : (env.fitness ind).isinf = true
  · rw [candidateStep_inf env sh atol st ind hinf]
    exact ⟨fun i => FVal.fle_self (hinv i).1, hinv⟩
  · rw [Bool.not_eq_true] at hinf
    cases hm : env.mapix ind with
    | none =>
        rw [candidateStep_recycle env sh atol st ind hinf hm]
        exact ⟨fun i => FVal.fle_self (hinv i).1, hinv⟩
    | some ix =>
        obtain ⟨_, hcond⟩ := candidateStep_mapped env sh atol st ind ix hinf hm
        by_cases hf : FVal.flt (st.fitnesses.get ix) (env.fitness ind) = true
        · rw [if_pos hf] at hcond
          have hnp : env.fitness ind ≠ FVal.pinf := by
            intro hp; rw [hp] at hinf; simp [FVal.isinf] at hinf
          have hnn : env.fitness ind ≠ FVal.nan := FVal.ne_nan_of_flt hf
          constructor
          · intro i
            by_cases hi : i = ix
            · subst hi; rw [hcond.1, Map.get_set_self]
              exact FVal.fle_of_flt hf
            · rw [hcond.1, Map.get_set_other _ _ hi]
              exact FVal.fle_self (hinv i).1
          · intro i
            by_cases hi : i = ix
            · subst hi; rw [hcond.1, Map.get_set_self]
              exact ⟨hnn, hnp⟩
            · rw [hcond.1, Map.get_set_other _ _ hi]
              exact hinv i
        · rw [if_neg hf] at hcond
          rw [hcond.1]
          exact ⟨fun i => FVal.fle_self (hinv i).1, hinv⟩

theorem chain_fit_scanl (env : EnvM ι G) (sh : Bool) (atol : ℚ) (i : ι) :
    ∀ (cs : List G) (st : LoopState ι G),
      (∀ j, st.fitnesses.get j ≠ FVal.nan ∧ st.fitnesses.get j ≠ FVal.pinf) →
      List.Chain' (fun a b => FVal.fle a b = true)
        ((cs.scanl (fun s ind => (candidateStep env sh atol s ind).1) st).map
          (fun s => s.fitnesses.get i))
  | [], st, _ => by simp
  | c :: cs, st, hinv => by
      rw [List.scanl_cons]
      simp only [List.singleton_append, List.map_cons]
      refine List.chain'_cons'.2 ⟨?_, ?_⟩
      · intro b hb
        have hhead : ((cs.scanl (fun s ind => (candidateStep env sh atol s ind).1)
            ((candidateStep env sh atol st c).1)).map (fun s => s.fitnesses.get i)).head?
            = some ((candidateStep env sh atol st c).1.fitnesses.get i) := by
          cases cs <;> simp [List.scanl]
        rw [hhead] at hb
        cases hb
        exact (candidateStep_fit_mono env sh atol st c hinv).1 i
      · exact chain_fit_scanl env sh atol i cs ((candidateStep env sh atol st c).1)
          (candidateStep_fit_mono env sh atol st c hinv).2

/-- Claim C5: along any run from a fresh archive, the sequence of values
read back from the fitness store at any fixed niche `i` is non-decreasing
in the float order, for any `historyLength ≥ 1`. -/
theorem C5_fitness_monotone (env : EnvM ι G) (sh : Bool) (atol : ℚ)
    (hl : ℕ) (hhl : 1 ≤ hl) (cs : List G) (i : ι) :
    List.Chain' (fun a b => FVal.fle a b = true)
      ((cs.scanl (fun s ind => (candidateStep env sh atol s ind).1)
        (freshLoop hl none)).map (fun s => s.fitnesses.get i)) := by
  refine chain_fit_scanl env sh atol i cs (freshLoop hl none) ?_
  intro j
  show (Map.init hl FVal.ninf).get j ≠ FVal.nan ∧ (Map.init hl FVal.ninf).get j ≠ FVal.pinf
  rw [Map.get_init]
  exact ⟨by simp, by simp⟩

/-- Witness for C5: the two-candidate run of `envCE` on a fresh archive. -/
theorem C5_fitness_monotone_witness :
    List.Chain' (fun a b => FVal.fle a b = true)
      (([0, 1].scanl (fun s ind => (candidateStep envCE false 0 s ind).1)
        (freshLoop 1 none)).map (fun s => s.fitnesses.get ())) :=
  C5_fitness_monotone envCE false 0 1 (by decide) [0, 1] ()

/-! ### The search loop never selects from an empty archive -/

theorem candidateStep_filled_inv (env : EnvM ι G) (sh : Bool) (atol : ℚ)
    (st : LoopState ι G) (ind : G) (allIxs : List ι)
    (hrange : ∀ g ix, env.mapix g = some ix → ix ∈ allIxs)
    (hinv : st.genomes.empty = false → ∃ ix ∈ allIxs, st.nonzero.get ix = true) :
    (candidateStep env sh atol st ind).1.genomes.empty = false →
      ∃ ix ∈ allIxs, (candidateStep env sh atol st ind).1.nonzero.get ix = true := by
  by_cases hinf : (env.fitness ind).isinf = true
  · rw [candidateStep_inf env sh atol st ind hinf]
    exact hinv
  · rw [Bool.not_eq_true] at hinf
    cases hm : env.mapix ind with
    | none =>
        rw [candidateStep_recycle env sh atol st ind hinf hm]
        exact hinv
    | some ix =>
        intro _
        obtain ⟨⟨hnz, _, _⟩, _⟩ := candidateStep_mapped env sh atol st ind ix hinf hm
        exact ⟨ix, hrange ind ix hm, by rw [hnz, Map.get_set_self]⟩

theorem processBatch_filled_inv (env : EnvM ι G) (sh : Bool) (atol : ℚ)
    (allIxs : List ι) (hrange : ∀ g ix, env.mapix g = some ix → ix ∈ allIxs) :
    ∀ (cs : List G) (st : LoopState ι G),
      (st.genomes.empty = false → ∃ ix ∈ allIxs, st.nonzero.get ix = true) →
      ((processBatch env sh atol st cs).genomes.empty = false →
        ∃ ix ∈ allIxs, (processBatch env sh atol st cs).nonzero.get ix = true)
  | [], st, hinv => hinv
  | c :: cs, st, hinv => by
      have hstep := candidateStep_filled_inv env sh atol st c allIxs hrange hinv
      by_cases hb : (candidateStep env sh atol st c).2 = true
      · have he : processBatch env sh atol st (c :: cs) = (candidateStep env sh atol st c).1 := by
          simp only [processBatch, hb, if_true]
        rw [he]
        exact hstep
      · rw [Bool.not_eq_true] at hb
        have he : processBatch env sh atol st (c :: cs)
            = processBatch env sh atol (candidateStep env sh atol st c).1 cs := by
          simp only [processBatch, hb, Bool.false_eq_true, if_false]
        rw [he]
        exact processBatch_filled_inv env sh atol allIxs hrange cs
          ((candidateStep env sh atol st c).1) hstep

theorem selectBatch_ok (allIxs : List ι) (selectO : ℕ → ℕ) :
    ∀ (k : ℕ) (st : LoopState ι G) (acc : List (Option G)),
      selectionList allIxs st.nonzero ≠ [] →
      ∃ pr, selectBatch allIxs selectO k st acc = Except.ok pr
        ∧ pr.2.nonzero = st.nonzero ∧ pr.2.genomes = st.genomes
  | 0, st, acc, _ => ⟨(acc, st), rfl, rfl, rfl⟩
  | k + 1, st, acc, hne => by
      have hlen : ¬(selectionList allIxs st.nonzero).length = 0 := by
        simpa [List.length_eq_zero] using hne
      have hsel : random_selection allIxs selectO st =
          Except.ok ((selectionList allIxs st.nonzero).get
            ⟨selectO st.select_calls % (selectionList allIxs st.nonzero).length,
              Nat.mod_lt _ (Nat.pos_of_ne_zero hlen)⟩,
            { st with select_calls := st.select_calls + 1 }) := by
        rw [random_selection, dif_neg hlen]
      obtain ⟨pr, hpr, hnz, hgen⟩ := selectBatch_ok allIxs selectO k
        { st with select_calls := st.select_calls + 1 }
        (acc ++ [({ st with select_calls := st.select_calls + 1 } : LoopState ι G).genomes.get
          ((selectionList allIxs st.nonzero).get
            ⟨selectO st.select_calls % (selectionList allIxs st.nonzero).length,
              Nat.mod_lt _ (Nat.pos_of_ne_zero hlen)⟩)])
        (by simpa using hne)
      exact ⟨pr, by rw [selectBatch, hsel]; exact hpr, hnz, hgen⟩

theorem searchSteps_ok (env : EnvM ι G) (allIxs : List ι) (selectO : ℕ → ℕ)
    (sh : Bool) (atol : ℚ) (init_steps : ℕ)
    (hrange : ∀ g ix, env.mapix g = some ix → ix ∈ allIxs) :
    ∀ (rem n : ℕ) (st : LoopState ι G),
      (st.genomes.empty = false → ∃ ix ∈ allIxs, st.nonzero.get ix = true) →
      ∃ stf, searchSteps env allIxs selectO sh atol init_steps rem n st = Except.ok stf
  | 0, _, st, _ => ⟨st, rfl⟩
  | rem + 1, n, st, hinv => by
      by_cases hc : n < init_steps ∨ st.genomes.empty = true
      · have hinv1 : (({ st with rand_calls := st.rand_calls + 1 } :
            LoopState ι G).genomes.empty = false →
            ∃ ix ∈ allIxs,
              ({ st with rand_calls := st.rand_calls + 1 } :
                LoopState ι G).nonzero.get ix = true) := hinv
        obtain ⟨stf, hstf⟩ := searchSteps_ok env allIxs selectO sh atol init_steps hrange
          rem (n + 1)
          (processBatch env sh atol { st with rand_calls := st.rand_calls + 1 }
            (env.randomO st.rand_calls))
          (processBatch_filled_inv env sh atol allIxs hrange _ _ hinv1)
        exact ⟨stf, by rw [searchSteps, if_pos hc]; exact hstf⟩
      · have hempty : st.genomes.empty = false := by
          rcases Bool.eq_false_or_eq_true st.genomes.empty with h | h
          · exact absurd (Or.inr h) hc
          · exact h
        obtain ⟨ix0, hix0, hget0⟩ := hinv hempty
        have hne : selectionList allIxs st.nonzero ≠ [] := by
          have : ix0 ∈ selectionList allIxs st.nonzero :=
            List.mem_filter.2 ⟨hix0, by simp [hget0]⟩
          exact List.ne_nil_of_mem this
        obtain ⟨pr, hpr, hnz, hgen⟩ := selectBatch_ok allIxs selectO env.batch_size st [] hne
        have hinv2 : (({ pr.2 with mutate_calls := pr.2.mutate_calls + 1 } :
            LoopState ι G).genomes.empty = false →
            ∃ ix ∈ allIxs,
              ({ pr.2 with mutate_calls := pr.2.mutate_calls + 1 } :
                LoopState ι G).nonzero.get ix = true) := by
          intro _
          exact ⟨ix0, hix0, by show pr.2.nonzero.get ix0 = true; rw [hnz]; exact hget0⟩
        obtain ⟨stf, hstf⟩ := searchSteps_ok env allIxs selectO sh atol init_steps hrange
          rem (n + 1)
          (processBatch env sh atol { pr.2 with mutate_calls := pr.2.mutate_calls + 1 }
            (env.mutateO pr.2.mutate_calls pr.1))
          (processBatch_filled_inv env sh atol allIxs hrange _ _ hinv2)
        refine ⟨stf, ?_⟩
        rw [searchSteps, if_neg hc, hpr]
        exact hstf

/-- Claim C10: for every environment behaviour, oracle, step budget and
resumed fitness map, the search loop never reaches the empty-selection
error of `random_selection`: the whole run returns normally.  (The
mutation branch only runs once the genome store is non-empty, and a
non-empty genome store implies some niche is marked filled.) -/
theorem C10_selection_never_empty (env : EnvM ι G) (allIxs : List ι)
    (selectO : ℕ → ℕ) (sh : Bool) (hl : ℕ) (initFit : Option (Map ι FVal))
    (init_steps total_steps : ℕ) (atol : ℚ)
    (hrange : ∀ g ix, env.mapix g = some ix → ix ∈ allIxs) :
    ∃ stf, search env allIxs selectO sh hl initFit init_steps total_steps atol
      = Except.ok stf := by
  refine searchSteps_ok env allIxs selectO sh atol init_steps hrange total_steps 0
    (freshLoop hl initFit) ?_
  intro hfalse
  have : (freshLoop (ι := ι) (G := G) hl initFit).genomes.empty = true := rfl
  rw [this] at hfalse
  exact absurd hfalse (by simp)

/-- Witness for C10: a concrete 3-step run on the one-cell environment
`envW10` finishes without error. -/
theorem C10_selection_never_empty_witness :
    ∃ stf, search envW10 [()] (fun _ => 0) false 1 none 1 3 0 = Except.ok stf :=
  C10_selection_never_empty envW10 [()] (fun _ => 0) false 1 none 1 3 0
    (fun g ix _ => by cases ix; simp)

/-! ### The recycle buffer -/

theorem processList_cons (env : EnvM ι G) (sh : Bool) (atol : ℚ)
    (st : LoopState ι G) (u : G) (us : List G) :
    processList env sh atol st (u :: us)
      = processList env sh atol (candidateStep env sh atol st u).1 us := rfl

theorem processList_recycle (env : EnvM ι G) (sh : Bool) (atol : ℚ) :
    ∀ (us : List G) (st : LoopState ι G), st.recycled.length ≠ 0 →
      (∀ u ∈ us, (env.fitness u).isinf = false ∧ env.mapix u = none) →
      ((processList env sh atol st us).recycled_count = st.recycled_count + us.length)
      ∧ ((processList env sh atol st us).recycled.length = st.recycled.length)
      ∧ (∀ p : ℕ, (∀ j, j < us.length → (st.recycled_count + j) % st.recycled.length ≠ p) →
          (processList env sh atol st us).recycled.get? p = st.recycled.get? p)
      ∧ (∀ j, (hj : j < us.length) →
          (∀ j2, j < j2 → j2 < us.length →
            (st.recycled_count + j2) % st.recycled.length
              ≠ (st.recycled_count + j) % st.recycled.length) →
          (processList env sh atol st us).recycled.get?
            ((st.recycled_count + j) % st.recycled.length) = some (some (us.get ⟨j, hj⟩)))
  | [], st, _, _ => by
      refine ⟨by simp [processList], rfl, fun p _ => rfl, fun j hj _ => by simp at hj⟩
  | u :: us, st, hlen0, hus => by
      have hu := hus u (List.mem_cons_self u us)
      have hstep := candidateStep_recycle env sh atol st u hu.1 hu.2
      set st1 := (candidateStep env sh atol st u).1 with hst1
      have h1rec : st1.recycled = st.recycled.set
          (st.recycled_count % st.recycled.length) (some u) := by rw [hst1, hstep]
      have h1cnt : st1.recycled_count = st.recycled_count + 1 := by rw [hst1, hstep]
      have h1len : st1.recycled.length = st.recycled.length := by
        rw [h1rec, List.length_set]
      have ih := processList_recycle env sh atol us st1 (by rw [h1len]; exact hlen0)
        (fun v hv => hus v (List.mem_cons_of_mem u hv))
      rw [processList_cons, ← hst1]
      obtain ⟨ihc, ihl, ihp, ihj⟩ := ih
      refine ⟨?_, ?_, ?_, ?_⟩
      · rw [ihc, h1cnt]; simp; omega
      · rw [ihl, h1len]
      · intro p hp
        have hp1 : ∀ j, j < us.length → (st1.recycled_count + j) % st1.recycled.length ≠ p := by
          intro j hjlt
          rw [h1cnt, h1len]
          have := hp (1 + j) (by simp; omega)
          have e : st.recycled_count + (1 + j) = st.recycled_count + 1 + j := by omega
          rwa [e] at this
        rw [ihp p hp1, h1rec]
        refine List.get?_set_ne _ _ ?_
        exact hp 0 (by simp)
      · intro j hj hnocol
        match j with
        | 0 =>
            have hp1 : ∀ j2, j2 < us.length →
                (st1.recycled_count + j2) % st1.recycled.length
                  ≠ (st.recycled_count + 0) % st.recycled.length := by
              intro j2 hj2
              rw [h1cnt, h1len]
              have := hnocol (1 + j2) (by omega) (by simp; omega)
              have e : st.recycled_count + (1 + j2) = st.recycled_count + 1 + j2 := by omega
              rwa [e] at this
            rw [ihp _ hp1, h1rec]
            have hlt : st.recycled_count % st.recycled.length < st.recycled.length :=
              Nat.mod_lt _ (Nat.pos_of_ne_zero hlen0)
            have e0 : (st.recycled_count + 0) % st.recycled.length
                = st.recycled_count % st.recycled.length := by simp
            rw [e0, List.get?_set_eq_of_lt _ hlt]
            rfl
        | j' + 1 =>
            have hj' : j' < us.length := by simpa using hj
            have hno' : ∀ j2, j' < j2 → j2 < us.length →
                (st1.recycled_count + j2) % st1.recycled.length
                  ≠ (st1.recycled_count + j') % st1.recycled.length := by
              intro j2 hgt hlt2
              rw [h1cnt, h1len]
              have := hnocol (1 + j2) (by omega) (by simp; omega)
              have e1 : st.recycled_count + (1 + j2) = st.recycled_count + 1 + j2 := by omega
              have e2 : st.recycled_count + (j' + 1) = st.recycled_count + 1 + j' := by omega
              rw [e1, e2] at this
              exact this
            have := ihj j' hj' hno'
            have e : st1.recycled_count + j' = st.recycled_count + (j' + 1) := by
              rw [h1cnt]; omega
            rw [e, h1len] at this
            rw [this]
            rfl

/-- Claim C9: the recycle buffer has fixed capacity (1000 entries,
never resized): the infinite-fitness discard path and the mapped-candidate
path never touch it; an unmappable candidate is stored at position
`recycled_count % capacity` and the monotonic counter advances by one; and
feeding `1000 + k` unmappable candidates (`k ≥ 1`) into a fresh archive
leaves the buffer length at 1000, with position `j % 1000` holding the
`j`-th candidate for every `j` in the last 1000 feeds (the oldest `k`
overwritten first). -/
theorem C9_recycle_bounded (env : EnvM ι G) (sh : Bool) (atol : ℚ) :
    (∀ (st : LoopState ι G) (ind : G),
      ((env.fitness ind).isinf = true →
        (candidateStep env sh atol st ind).1.recycled = st.recycled
        ∧ (candidateStep env sh atol st ind).1.recycled_count = st.recycled_count)
      ∧ (∀ ix, env.mapix ind = some ix → (env.fitness ind).isinf = false →
        (candidateStep env sh atol st ind).1.recycled = st.recycled
        ∧ (candidateStep env sh atol st ind).1.recycled_count = st.recycled_count)
      ∧ ((env.fitness ind).isinf = false → env.mapix ind = none →
        (candidateStep env sh atol st ind).1.recycled
            = st.recycled.set (st.recycled_count % st.recycled.length) (some ind)
        ∧ (candidateStep env sh atol st ind).1.recycled_count = st.recycled_count + 1
        ∧ (candidateStep env sh atol st ind).1.recycled.length = st.recycled.length))
    ∧ (∀ (us : List G) (k : ℕ), 1 ≤ k → us.length = 1000 + k →
        (∀ u ∈ us, (env.fitness u).isinf = false ∧ env.mapix u = none) →
        (processList env sh atol (freshLoop 1 none) us).recycled.length = 1000
        ∧ (processList env sh atol (freshLoop 1 none) us).recycled_count = us.length
        ∧ (∀ j, (hj : j < us.length) → k ≤ j →
            (processList env sh atol (freshLoop 1 none) us).recycled.get? (j % 1000)
              = some (some (us.get ⟨j, hj⟩)))) := by
  constructor
  · intro st ind
    refine ⟨?_, ?_, ?_⟩
    · intro hinf
      rw [candidateStep_inf env sh atol st ind hinf]
      exact ⟨rfl, rfl⟩
    · intro ix hm hinf
      obtain ⟨⟨_, hrec, hcnt⟩, _⟩ := candidateStep_mapped env sh atol st ind ix hinf hm
      exact ⟨hrec, hcnt⟩
    · intro hinf hm
      rw [candidateStep_recycle env sh atol st ind hinf hm]
      exact ⟨rfl, rfl, by simp⟩
  · intro us k hk hlen hus
    have hfresh : (freshLoop (ι := ι) (G := G) 1 none).recycled.length = 1000 :=
      List.length_replicate 1000 none
    have hcnt0 : (freshLoop (ι := ι) (G := G) 1 none).recycled_count = 0 := rfl
    obtain ⟨hc, hl, _, hj⟩ := processList_recycle env sh atol us (freshLoop 1 none)
      (by rw [hfresh]; omega) hus
    refine ⟨by rw [hl, hfresh], by rw [hc, hcnt0]; omega, ?_⟩
    intro j hjlt hkj
    have := hj j hjlt ?_
    · rw [hcnt0] at this
      simpa [hfresh] using this
    · intro j2 hgt hlt2
      rw [hcnt0, hfresh]
      simp only [Nat.zero_add]
      intro hmod
      omega

/-- Witness for C9: feeding 1001 unmappable candidates through `envRec`. -/
theorem C9_recycle_bounded_witness :
    (processList envRec false 0 (freshLoop 1 none) (List.replicate 1001 ())).recycled.length
      = 1000
    ∧ (processList envRec false 0 (freshLoop 1 none)
        (List.replicate 1001 ())).recycled_count = 1001
    ∧ (processList envRec false 0 (freshLoop 1 none)
        (List.replicate 1001 ())).recycled.get? 1 = some (some ()) := by
  have hlen : (List.replicate 1001 (() : Unit)).length = 1000 + 1 :=
    List.length_replicate 1001 ()
  have h := (C9_recycle_bounded envRec false 0).2 (List.replicate 1001 ()) 1
    (by decide) hlen (fun u _ => ⟨rfl, rfl⟩)
  refine ⟨h.1, by rw [h.2.1, List.length_replicate], ?_⟩
  have h2 := h.2.2 1 (by rw [List.length_replicate]; decide) (by decide)
  have e1 : 1 % 1000 = 1 := by decide
  rw [e1] at h2
  exact h2

/-! ### The behaviour discretizer -/

theorem binsFor_eq (lo hi : ℚ) (g : ℕ) :
    binsFor lo hi g = (List.range (g - 1)).map fun j => linspace lo hi (g + 1) (j + 1) := by
  unfold binsFor
  rw [List.range_succ_eq_map]
  simp only [List.map_cons, List.drop_succ_cons, List.drop_zero, List.map_map]
  cases g with
  | zero => simp
  | succ g2 =>
      rw [List.range_succ, List.map_append]
      simp only [List.map_cons, List.map_nil, List.dropLast_concat]
      rfl

theorem binsFor_length (lo hi : ℚ) (g : ℕ) : (binsFor lo hi g).length = g - 1 := by
  rw [binsFor_eq, List.length_map, List.length_range]

theorem linspace_le_linspace (lo hi : ℚ) (g : ℕ) (hlt : lo < hi) (hg : 1 ≤ g)
    (a b : ℕ) : linspace lo hi (g + 1) a ≤ linspace lo hi (g + 1) b ↔ a ≤ b := by
  unfold linspace
  have hgq : (0 : ℚ) < ((g + 1 : ℕ) : ℚ) - 1 := by
    push_cast
    have h1 : (1 : ℚ) ≤ (g : ℚ) := by exact_mod_cast hg
    linarith
  have hd : (0 : ℚ) < (hi - lo) / (((g + 1 : ℕ) : ℚ) - 1) :=
    div_pos (by linarith) hgq
  have mono : ∀ x y : ℕ, x ≤ y →
      lo + (x : ℚ) * (hi - lo) / (((g + 1 : ℕ) : ℚ) - 1)
        ≤ lo + (y : ℚ) * (hi - lo) / (((g + 1 : ℕ) : ℚ) - 1) := by
    intro x y hxy
    have hc : (x : ℚ) ≤ (y : ℚ) := by exact_mod_cast hxy
    have h2 : (x : ℚ) * ((hi - lo) / (((g + 1 : ℕ) : ℚ) - 1))
        ≤ (y : ℚ) * ((hi - lo) / (((g + 1 : ℕ) : ℚ) - 1)) :=
      mul_le_mul_of_nonneg_right hc (le_of_lt hd)
    have e1 : (x : ℚ) * (hi - lo) / (((g + 1 : ℕ) : ℚ) - 1)
        = (x : ℚ) * ((hi - lo) / (((g + 1 : ℕ) : ℚ) - 1)) := by ring
    have e2 : (y : ℚ) * (hi - lo) / (((g + 1 : ℕ) : ℚ) - 1)
        = (y : ℚ) * ((hi - lo) / (((g + 1 : ℕ) : ℚ) - 1)) := by ring
    linarith [h2, e1, e2]
  have strict : ∀ x y : ℕ, x < y →
      lo + (x : ℚ) * (hi - lo) / (((g + 1 : ℕ) : ℚ) - 1)
        < lo + (y : ℚ) * (hi - lo) / (((g + 1 : ℕ) : ℚ) - 1) := by
    intro x y hxy
    have hc : (x : ℚ) < (y : ℚ) := by exact_mod_cast hxy
    have h2 : (x : ℚ) * ((hi - lo) / (((g + 1 : ℕ) : ℚ) - 1))
        < (y : ℚ) * ((hi - lo) / (((g + 1 : ℕ) : ℚ) - 1)) :=
      mul_lt_mul_of_pos_right hc hd
    have e1 : (x : ℚ) * (hi - lo) / (((g + 1 : ℕ) : ℚ) - 1)
        = (x : ℚ) * ((hi - lo) / (((g + 1 : ℕ) : ℚ) - 1)) := by ring
    have e2 : (y : ℚ) * (hi - lo) / (((g + 1 : ℕ) : ℚ) - 1)
        = (y : ℚ) * ((hi - lo) / (((g + 1 : ℕ) : ℚ) - 1)) := by ring
    linarith [h2, e1, e2]
  constructor
  · intro h
    by_contra hab
    push_neg at hab
    have := strict b a hab
    linarith
  · exact mono a b

theorem length_filter_range_lt (n k : ℕ) :
    ((List.range n).filter fun j => decide (j < k)).length = min k n := by
  induction n with
  | zero => simp
  | succ n ih =>
      rw [List.range_succ, List.filter_append, List.length_append, ih]
      by_cases h : n < k
      · simp [h]
        omega
      · simp [h]
        omega

/-- Claim C6: for a behaviour dimension with declared bounds `(lo, hi)`
(`lo < hi`) and grid resolution `g ≥ 1`:
a component exactly equal to bin `k`'s lower declared bound maps to bin
`k`; a component below the first interior cut point maps to bin 0;
a component above the last cut point maps to bin `g - 1`; every component
(including `nan` and infinities) maps inside `[0, g)`; and an undefined
phenotype maps to the undefined index. -/
theorem C6_digitize_clamps (lo hi : ℚ) (g : ℕ) (hlt : lo < hi) (hg : 1 ≤ g) :
    (∀ k : ℕ, k < g →
      digitize (FVal.val (linspace lo hi (g + 1) k)) (binsFor lo hi g) = k)
    ∧ (∀ q : ℚ, q < linspace lo hi (g + 1) 1 →
        digitize (FVal.val q) (binsFor lo hi g) = 0)
    ∧ (∀ q : ℚ, linspace lo hi (g + 1) (g - 1) < q →
        digitize (FVal.val q) (binsFor lo hi g) = g - 1)
    ∧ (∀ x : FVal, digitize x (binsFor lo hi g) < g)
    ∧ (∀ bins, to_mapindex bins none = none) := by
  refine ⟨?_, ?_, ?_, ?_, fun _ => rfl⟩
  · intro k hk
    show ((binsFor lo hi g).filter fun e => decide (e ≤ linspace lo hi (g + 1) k)).length = k
    rw [binsFor_eq, List.filter_map, List.length_map]
    have hfun : ((fun e => decide (e ≤ linspace lo hi (g + 1) k)) ∘
        fun j => linspace lo hi (g + 1) (j + 1)) = fun j => decide (j < k) := by
      funext j
      show decide (linspace lo hi (g + 1) (j + 1) ≤ linspace lo hi (g + 1) k) = _
      simp only [decide_eq_decide]
      rw [linspace_le_linspace lo hi g hlt hg (j + 1) k]
      omega
    rw [hfun, length_filter_range_lt]
    omega
  · intro q hq
    show ((binsFor lo hi g).filter fun e => decide (e ≤ q)).length = 0
    rw [List.length_eq_zero]
    rw [List.filter_eq_nil]
    intro e he
    rw [binsFor_eq, List.mem_map] at he
    obtain ⟨j, _, rfl⟩ := he
    simp only [decide_eq_true_eq, not_le]
    have h1 : linspace lo hi (g + 1) 1 ≤ linspace lo hi (g + 1) (j + 1) :=
      (linspace_le_linspace lo hi g hlt hg 1 (j + 1)).2 (by omega)
    linarith
  · intro q hq
    show ((binsFor lo hi g).filter fun e => decide (e ≤ q)).length = g - 1
    have hall : (binsFor lo hi g).filter (fun e => decide (e ≤ q)) = binsFor lo hi g := by
      rw [List.filter_eq_self]
      intro e he
      rw [binsFor_eq, List.mem_map] at he
      obtain ⟨j, hj, rfl⟩ := he
      rw [List.mem_range] at hj
      simp only [decide_eq_true_eq]
      have h1 : linspace lo hi (g + 1) (j + 1) ≤ linspace lo hi (g + 1) (g - 1) :=
        (linspace_le_linspace lo hi g hlt hg (j + 1) (g - 1)).2 (by omega)
      linarith
    rw [hall, binsFor_length]
  · intro x
    have hb := binsFor_length lo hi g
    cases x with
    | nan => show (binsFor lo hi g).length < g; omega
    | pinf => show (binsFor lo hi g).length < g; omega
    | ninf => show 0 < g; omega
    | val q =>
        show ((binsFor lo hi g).filter fun e => decide (e ≤ q)).length < g
        have := List.length_filter_le (fun e => decide (e ≤ q)) (binsFor lo hi g)
        omega

/-- Witness for C6 on bounds `(0, 1)` with resolution 4: the bin-2 lower
bound `1/2` maps to bin 2, and a `nan` component clamps inside the grid. -/
theorem C6_digitize_clamps_witness :
    digitize (FVal.val (1 / 2)) (binsFor 0 1 4) = 2
    ∧ digitize FVal.nan (binsFor 0 1 4) < 4 := by
  have h := C6_digitize_clamps 0 1 4 (by norm_num) (by norm_num)
  constructor
  · have h2 := h.1 2 (by norm_num)
    have e : linspace 0 1 (4 + 1) 2 = 1 / 2 := by
      unfold linspace
      norm_num
    rwa [e] at h2
  · exact h.2.2.2.1 FVal.nan

/-! ### Reachability invariant of the archive -/

theorem processList_append (env : EnvM ι G) (sh : Bool) (atol : ℚ)
    (s0 : LoopState ι G) (cs : List G) (c : G) :
    processList env sh atol s0 (cs ++ [c])
      = (candidateStep env sh atol (processList env sh atol s0 cs) c).1 := by
  simp [processList, List.foldl_append]

theorem candidateStep_fit_hl (env : EnvM ι G) (sh : Bool) (atol : ℚ)
    (st : LoopState ι G) (ind : G) :
    (candidateStep env sh atol st ind).1.fitnesses.history_length
      = st.fitnesses.history_length := by
  by_cases hinf : (env.fitness ind).isinf = true
  · rw [candidateStep_inf env sh atol st ind hinf]
  · rw [Bool.not_eq_true] at hinf
    cases hm : env.mapix ind with
    | none => rw [candidateStep_recycle env sh atol st ind hinf hm]
    | some ix =>
        obtain ⟨_, hcond⟩ := candidateStep_mapped env sh atol st ind ix hinf hm
        by_cases hf : FVal.flt (st.fitnesses.get ix) (env.fitness ind) = true
        · rw [if_pos hf] at hcond
          rw [hcond.1, Map.history_length_set]
        · rw [if_neg (by simp [hf])] at hcond
          rw [hcond.1]

theorem processList_fit_hl (env : EnvM ι G) (sh : Bool) (atol : ℚ) :
    ∀ (cs : List G) (st : LoopState ι G),
      (processList env sh atol st cs).fitnesses.history_length
        = st.fitnesses.history_length
  | [], _ => rfl
  | c :: cs, st => by
      rw [processList_cons]
      rw [processList_fit_hl env sh atol cs _]
      exact candidateStep_fit_hl env sh atol st c

theorem processList_inv (env : EnvM ι G) (sh : Bool) (atol : ℚ) (hl : ℕ) :
    ∀ (cs : List G), (∀ c ∈ cs, env.fitness c ≠ FVal.nan) →
    ∀ i : ι,
      ((processList env sh atol (freshLoop hl none) cs).nonzero.get i = false →
        (processList env sh atol (freshLoop hl none) cs).fitnesses.get i = FVal.ninf
        ∧ ∀ c ∈ cs, env.mapix c = some i → (env.fitness c).isinf = false → False)
      ∧ ((processList env sh atol (freshLoop hl none) cs).nonzero.get i = true →
        ((processList env sh atol (freshLoop hl none) cs).fitnesses.get i).isfinite = true
        ∧ ∃ c ∈ cs, env.mapix c = some i
            ∧ (processList env sh atol (freshLoop hl none) cs).fitnesses.get i
                = env.fitness c
            ∧ (processList env sh atol (freshLoop hl none) cs).genomes.get i = some c
            ∧ ∀ c2 ∈ cs, env.mapix c2 = some i → (env.fitness c2).isinf = false →
                FVal.fle (env.fitness c2) (env.fitness c) = true) := by
  intro cs
  induction cs using List.reverseRecOn with
  | nil =>
      intro _ i
      constructor
      · intro _
        refine ⟨Map.get_init hl FVal.ninf i, ?_⟩
        intro c hc
        simp at hc
      · intro habs
        have : (freshLoop (ι := ι) (G := G) hl none).nonzero.get i = false :=
          Map.get_init 1 false i
        rw [show processList env sh atol (freshLoop hl none) ([] : List G)
            = freshLoop hl none from rfl] at habs
        rw [this] at habs
        exact absurd habs (by simp)
  | append_singleton cs c ih =>
      intro hnan i
      have hnan2 : ∀ c2 ∈ cs, env.fitness c2 ≠ FVal.nan := fun c2 h =>
        hnan c2 (List.mem_append_left _ h)
      have hnanc : env.fitness c ≠ FVal.nan := hnan c (List.mem_append_right _ (by simp))
      have ihi := ih hnan2
      rw [processList_append]
      set st := processList env sh atol (freshLoop hl none) cs with hst
      by_cases hinf : (env.fitness c).isinf = true
      · rw [candidateStep_inf env sh atol st c hinf]
        constructor
        · intro hnz
          obtain ⟨hfit, hnone⟩ := (ihi i).1 hnz
          refine ⟨hfit, ?_⟩
          intro c2 hc2 hmap hninf
          rcases List.mem_append.1 hc2 with h | h
          · exact hnone c2 h hmap hninf
          · rw [List.mem_singleton] at h
            subst h
            rw [hinf] at hninf
            exact absurd hninf (by simp)
        · intro hnz
          obtain ⟨hfin, c0, hc0, hmap0, hfit0, hgen0, hbound⟩ := (ihi i).2 hnz
          refine ⟨hfin, c0, List.mem_append_left _ hc0, hmap0, hfit0, hgen0, ?_⟩
          intro c2 hc2 hmap hninf
          rcases List.mem_append.1 hc2 with h | h
          · exact hbound c2 h hmap hninf
          · rw [List.mem_singleton] at h
            subst h
            rw [hinf] at hninf
            exact absurd hninf (by simp)
      · rw [Bool.not_eq_true] at hinf
        cases hm : env.mapix c with
        | none =>
            rw [candidateStep_recycle env sh atol st c hinf hm]
            constructor
            · intro hnz
              obtain ⟨hfit, hnone⟩ := (ihi i).1 hnz
              refine ⟨hfit, ?_⟩
              intro c2 hc2 hmap hninf
              rcases List.mem_append.1 hc2 with h | h
              · exact hnone c2 h hmap hninf
              · rw [List.mem_singleton] at h
                subst h
                rw [hm] at hmap
                exact absurd hmap (by simp)
            · intro hnz
              obtain ⟨hfin, c0, hc0, hmap0, hfit0, hgen0, hbound⟩ := (ihi i).2 hnz
              refine ⟨hfin, c0, List.mem_append_left _ hc0, hmap0, hfit0, hgen0, ?_⟩
              intro c2 hc2 hmap hninf
              rcases List.mem_append.1 hc2 with h | h
              · exact hbound c2 h hmap hninf
              · rw [List.mem_singleton] at h
                subst h
                rw [hm] at hmap
                exact absurd hmap (by simp)
        | some j =>
            obtain ⟨q, hq⟩ := FVal.exists_val hnanc hinf
            obtain ⟨⟨hnz, _, _⟩, hcond⟩ := candidateStep_mapped env sh atol st c j hinf hm
            by_cases hij : i = j
            · subst hij
              constructor
              · intro habs
                rw [hnz, Map.get_set_self] at habs
                exact absurd habs (by simp)
              · intro _
                by_cases hf : FVal.flt (st.fitnesses.get i) (env.fitness c) = true
                · rw [if_pos hf] at hcond
                  have hfitget : (candidateStep env sh atol st c).1.fitnesses.get i
                      = env.fitness c := by rw [hcond.1, Map.get_set_self]
                  have hgenget : (candidateStep env sh atol st c).1.genomes.get i
                      = some c := by rw [hcond.2, Map.get_set_self]
                  refine ⟨by rw [hfitget, hq]; rfl,
                    c, List.mem_append_right _ (by simp), hm, hfitget, hgenget, ?_⟩
                  intro c2 hc2 hmap hninf
                  rcases List.mem_append.1 hc2 with h | h
                  · rcases Bool.eq_false_or_eq_true (st.nonzero.get i) with hnzi | hnzi
                    · obtain ⟨_, c0, _, _, hfit0, _, hbound⟩ := (ihi i).2 hnzi
                      have h1 := hbound c2 h hmap hninf
                      have h2 : FVal.flt (env.fitness c0) (env.fitness c) = true := by
                        rw [← hfit0]; exact hf
                      exact FVal.fle_trans_of_flt h1 h2
                    · exact (((ihi i).1 hnzi).2 c2 h hmap hninf).elim
                  · rw [List.mem_singleton] at h
                    subst h
                    rw [hq]
                    exact FVal.fle_self (by simp)
                · rw [if_neg (by simp [hf])] at hcond
                  have hnzi : st.nonzero.get i = true := by
                    rcases Bool.eq_false_or_eq_true (st.nonzero.get i) with hnzi | hnzi
                    · exact hnzi
                    · exfalso
                      obtain ⟨hfit, _⟩ := (ihi i).1 hnzi
                      rw [hfit, hq] at hf
                      exact hf (by simp [FVal.flt])
                  obtain ⟨hfin, c0, hc0, hmap0, hfit0, hgen0, hbound⟩ := (ihi i).2 hnzi
                  refine ⟨by rw [hcond.1]; exact hfin,
                    c0, List.mem_append_left _ hc0, hmap0, by rw [hcond.1]; exact hfit0,
                    by rw [hcond.2]; exact hgen0, ?_⟩
                  intro c2 hc2 hmap hninf
                  rcases List.mem_append.1 hc2 with h | h
                  · exact hbound c2 h hmap hninf
                  · rw [List.mem_singleton] at h
                    subst h
                    obtain ⟨r, hr⟩ := FVal.exists_val_of_isfinite hfin
                    rw [← hfit0, hr, hq]
                    rw [hr, hq] at hf
                    exact FVal.fle_of_not_flt (by simp) (by simp)
                      (by simpa using hf)
            · have hnzother : (candidateStep env sh atol st c).1.nonzero.get i
                  = st.nonzero.get i := by rw [hnz, Map.get_set_other _ _ hij]
              have hfitother : (candidateStep env sh atol st c).1.fitnesses.get i
                  = st.fitnesses.get i := by
                by_cases hf : FVal.flt (st.fitnesses.get j) (env.fitness c) = true
                · rw [if_pos hf] at hcond
                  rw [hcond.1, Map.get_set_other _ _ hij]
                · rw [if_neg (by simp [hf])] at hcond
                  rw [hcond.1]
              have hgenother : (candidateStep env sh atol st c).1.genomes.get i
                  = st.genomes.get i := by
                by_cases hf : FVal.flt (st.fitnesses.get j) (env.fitness c) = true
                · rw [if_pos hf] at hcond
                  rw [hcond.2, Map.get_set_other _ _ hij]
                · rw [if_neg (by simp [hf])] at hcond
                  rw [hcond.2]
              constructor
              · intro hnzf
                rw [hnzother] at hnzf
                obtain ⟨hfit, hnone⟩ := (ihi i).1 hnzf
                refine ⟨by rw [hfitother]; exact hfit, ?_⟩
                intro c2 hc2 hmap hninf
                rcases List.mem_append.1 hc2 with h | h
                · exact hnone c2 h hmap hninf
                · rw [List.mem_singleton] at h
                  subst h
                  rw [hm] at hmap
                  exact hij (by injection hmap with e; exact e.symm)
              · intro hnzf
                rw [hnzother] at hnzf
                obtain ⟨hfin, c0, hc0, hmap0, hfit0, hgen0, hbound⟩ := (ihi i).2 hnzf
                refine ⟨by rw [hfitother]; exact hfin,
                  c0, List.mem_append_left _ hc0, hmap0,
                  by rw [hfitother]; exact hfit0, by rw [hgenother]; exact hgen0, ?_⟩
                intro c2 hc2 hmap hninf
                rcases List.mem_append.1 hc2 with h | h
                · exact hbound c2 h hmap hninf
                · rw [List.mem_singleton] at h
                  subst h
                  rw [hm] at hmap
                  exact absurd (by injection hmap with e; exact e.symm) hij

/-- Claim C7 counterexample: a single `nan`-fitness candidate routed to the
only cell marks it filled while its fitness stays `-inf`: `filled[i]` is
true although `fitness[i]` is not finite, refuting the invariant as stated
for `nan`-fitness candidates (which the per-candidate step does process). -/
theorem C7_counterexample :
    stNaN.nonzero.get () = true ∧ (stNaN.fitnesses.get ()).isfinite = false := by
  with_unfolding_all decide

/-- Claim C7 (amended): on every archive state reached from a fresh archive
by candidates none of which has `nan` fitness, `fitness[i]` is finite iff
`filled[i]` is true, and every filled niche holds the fitness and genome of
a retained candidate routed there whose fitness is at least that of every
non-infinite candidate ever routed to the niche. -/
theorem C7_invariant_amended (env : EnvM ι G) (sh : Bool) (atol : ℚ) (hl : ℕ)
    (cs : List G) (hnan : ∀ c ∈ cs, env.fitness c ≠ FVal.nan) (i : ι) :
    ((processList env sh atol (freshLoop hl none) cs).nonzero.get i = true
      ↔ ((processList env sh atol (freshLoop hl none) cs).fitnesses.get i).isfinite = true)
    ∧ ((processList env sh atol (freshLoop hl none) cs).nonzero.get i = true →
        ∃ c ∈ cs, env.mapix c = some i
          ∧ (processList env sh atol (freshLoop hl none) cs).fitnesses.get i = env.fitness c
          ∧ (processList env sh atol (freshLoop hl none) cs).genomes.get i = some c
          ∧ ∀ c2 ∈ cs, env.mapix c2 = some i → (env.fitness c2).isinf = false →
              FVal.fle (env.fitness c2) (env.fitness c) = true) := by
  have h := processList_inv env sh atol hl cs hnan i
  refine ⟨⟨fun hnz => (h.2 hnz).1, fun hfin => ?_⟩, fun hnz => (h.2 hnz).2⟩
  rcases Bool.eq_false_or_eq_true
    ((processList env sh atol (freshLoop hl none) cs).nonzero.get i) with hnz | hnz
  · exact hnz
  · exfalso
    rw [(h.1 hnz).1] at hfin
    exact absurd hfin (by decide)

/-- Witness for the amended C7: the two-candidate run of `envCE`. -/
theorem C7_invariant_amended_witness :
    (processList envCE false 0 (freshLoop 1 none) [0, 1]).nonzero.get () = true
      ↔ ((processList envCE false 0 (freshLoop 1 none) [0, 1]).fitnesses.get ()).isfinite
        = true :=
  (C7_invariant_amended envCE false 0 1 [0, 1]
    (by intro c hc; by_cases h0 : c = 0 <;> simp [envCE, h0]) ()).1

/-! ### QD score -/

/-- Claim C2 counterexample: with `historyLength = 2`, after routing
fitness 1.0 and then fitness 2.0 into the same single cell, `qd_score()`
is 3 (the stale history slot still contributes), whereas the sum of
current-top fitness over the filled niches is 2; likewise
`niches_filled()` counts 2 although exactly one niche is filled. -/
theorem C2_counterexample :
    Map.qd_score stCE.fitnesses = 3
    ∧ (∑ i ∈ Finset.univ.filter (fun i : Unit => stCE.nonzero.get i = true),
        (stCE.fitnesses.get i).toRat) = 2
    ∧ stCE.fitnesses.niches_filled = 2
    ∧ (Finset.univ.filter (fun i : Unit => stCE.nonzero.get i = true)).card = 1 := by
  with_unfolding_all decide

/-- Claim C2 (amended): `qd_score()` sums every finite entry of the whole
backing array (history slots included).  With `historyLength = 1` and no
`nan`-fitness candidates this equals the sum of `fitness[i]` over exactly
the niches with `filled[i] = true`, and `niches_filled()` is their count;
a freshly constructed archive has `qd_score() = 0` and
`niches_filled() = 0`. -/
theorem C2_qd_score_amended (env : EnvM ι G) [Fintype ι] (sh : Bool) (atol : ℚ)
    (cs : List G) (hnan : ∀ c ∈ cs, env.fitness c ≠ FVal.nan) :
    Map.qd_score (processList env sh atol (freshLoop 1 none) cs).fitnesses
      = ∑ i ∈ Finset.univ.filter
          (fun i : ι =>
            (processList env sh atol (freshLoop 1 none) cs).nonzero.get i = true),
          ((processList env sh atol (freshLoop 1 none) cs).fitnesses.get i).toRat
    ∧ (processList env sh atol (freshLoop 1 none) cs).fitnesses.niches_filled
      = (Finset.univ.filter
          (fun i : ι =>
            (processList env sh atol (freshLoop 1 none) cs).nonzero.get i = true)).card
    ∧ Map.qd_score ((freshLoop 1 none : LoopState ι G)).fitnesses = 0
    ∧ ((freshLoop 1 none : LoopState ι G)).fitnesses.niches_filled = 0 := by
  have hinv := processList_inv env sh atol 1 cs hnan
  have hhl : (processList env sh atol (freshLoop 1 none) cs).fitnesses.history_length
      = 1 := by
    rw [processList_fit_hl]
    rfl
  have hslots : (processList env sh atol (freshLoop 1 none) cs).fitnesses.histSlots
      = 1 := by
    rw [Map.histSlots, if_pos hhl]
  have hget : ∀ i : ι, (processList env sh atol (freshLoop 1 none) cs).fitnesses.get i
      = (processList env sh atol (freshLoop 1 none) cs).fitnesses.array 0 i := by
    intro i
    rw [Map.get, if_pos hhl]
  have hiff : ∀ i : ι,
      ((processList env sh atol (freshLoop 1 none) cs).fitnesses.get i).isfinite = true
        ↔ (processList env sh atol (freshLoop 1 none) cs).nonzero.get i = true := by
    intro i
    constructor
    · intro hfin
      rcases Bool.eq_false_or_eq_true
        ((processList env sh atol (freshLoop 1 none) cs).nonzero.get i) with hnz | hnz
      · exact hnz
      · exfalso
        rw [((hinv i).1 hnz).1] at hfin
        exact absurd hfin (by decide)
    · intro hnz
      exact ((hinv i).2 hnz).1
  refine ⟨?_, ?_, ?_, ?_⟩
  · rw [Map.qd_score, hslots, Finset.sum_range_one, Finset.sum_filter]
    refine Finset.sum_congr rfl ?_
    intro i _
    rw [← hget i]
    rcases Bool.eq_false_or_eq_true
      ((processList env sh atol (freshLoop 1 none) cs).nonzero.get i) with hnz | hnz
    · rw [if_pos ((hiff i).2 hnz), if_pos hnz]
    · have hnfin :
          ¬((processList env sh atol (freshLoop 1 none) cs).fitnesses.get i).isfinite
            = true := by
        intro hfin
        have : (true : Bool) = false := ((hiff i).1 hfin).symm.trans hnz
        exact absurd this (by decide)
      rw [if_neg hnfin, if_neg (by simp [hnz])]
  · rw [Map.niches_filled, hslots, Finset.sum_range_one]
    congr 1
    refine Finset.filter_congr ?_
    intro i _
    rw [← hget i]
    exact ⟨fun hfin => (hiff i).1 hfin, fun hnz => (hiff i).2 hnz⟩
  · show Map.qd_score (Map.init 1 FVal.ninf) = 0
    rw [Map.qd_score]
    have h1 : (Map.init (ι := ι) 1 (FVal.ninf)).histSlots = 1 := rfl
    rw [h1, Finset.sum_range_one]
    simp [Map.init, FVal.isfinite]
  · show Map.niches_filled (Map.init 1 FVal.ninf) = 0
    rw [Map.niches_filled]
    have h1 : (Map.init (ι := ι) 1 (FVal.ninf)).histSlots = 1 := rfl
    rw [h1, Finset.sum_range_one]
    simp [Map.init, FVal.isfinite]

/-- Witness for the amended C2: the two-candidate run of `envCE` with
`historyLength = 1`. -/
theorem C2_qd_score_amended_witness :
    Map.qd_score (processList envCE false 0 (freshLoop 1 none) [0, 1]).fitnesses
      = ∑ i ∈ Finset.univ.filter
          (fun i : Unit =>
            (processList envCE false 0 (freshLoop 1 none) [0, 1]).nonzero.get i = true),
          ((processList envCE false 0 (freshLoop 1 none) [0, 1]).fitnesses.get i).toRat :=
  (C2_qd_score_amended envCE false 0 [0, 1]
    (by intro c hc; by_cases h0 : c = 0 <;> simp [envCE, h0])).1

/-! ### The early-stop check only leaves the per-candidate loop -/

/-- Claim C1 (code behaviour at the failing input): in `envC1` with
`max_fitness = 2.0`, tolerance 0, `init_steps = 1` and `total_steps = 3`,
the candidate of fitness exactly 2.0 inserted at iteration 0 makes the
`np.isclose` check fire (the per-candidate `break`), yet the run does not
terminate: all 3 outer iterations execute — the environment is asked for
one random batch and two mutation batches — and iteration 1 still inserts
a fresh genome of fitness 1.0 into bin `[1]` after the stop condition
already held.  The `break` leaves only the per-candidate loop, never the
outer iteration loop. -/
theorem C1_break_only_inner :
    (candidateStep envC1 false 0 (freshLoop 1 none) 0).2 = true
    ∧ ((search envC1 [[0], [1]] (fun _ => 0) false 1 none 1 3 0).toOption.map
        (fun st => (st.rand_calls, st.mutate_calls, st.nonzero.get [1],
          st.fitnesses.get [1])))
      = some (1, 2, true, FVal.val 1) := by
  with_unfolding_all decide

end OpenELM
